import Mathlib

/-!
Verification development for the SageSlayerServer repository: a shallow
embedding of the proof-of-work engine (pkg/pow), the length-prefixed framing
(pkg/protocol), the adaptive rate limiter (pkg/ratelimiter) and the
difficulty policy and solution-handling path of the server
(cmd/server/main.go, internal/server/server.go), together with theorems
settling the specification's claims about them.

Conventions of the embedding:
  * Go byte slices are `List Nat` whose elements are the byte values;
  * Go `big.Int` values that are always non-negative (curve coordinates,
    nonces) are `Nat`; machine integers are `Int`, with reduction modulo
    2 ^ 32 written out explicitly where Go converts to `uint32`;
  * Go `float64` counters and `time.Time` instants are modelled exactly, as
    elements of a linear ordered field: rationals where only comparisons
    occur, reals where `math.Exp` is involved (times are in seconds, so
    `time.Duration.Seconds` is plain subtraction and one minute is 60);
  * fallible Go functions return `Option` or `Except`.
-/

/-! ## Byte-level helpers -/

/-- Big-endian 4-byte encoding of a 32-bit word, as
`binary.BigEndian.PutUint32` produces it. -/
def be32 (n : Nat) : List Nat :=
  [n / 2 ^ 24 % 256, n / 2 ^ 16 % 256, n / 2 ^ 8 % 256, n % 256]

/-- Big-endian 8-byte encoding of a 64-bit word (the length field of SHA-256
padding). -/
def be64 (n : Nat) : List Nat :=
  [n / 2 ^ 56 % 256, n / 2 ^ 48 % 256, n / 2 ^ 40 % 256, n / 2 ^ 32 % 256,
   n / 2 ^ 24 % 256, n / 2 ^ 16 % 256, n / 2 ^ 8 % 256, n % 256]

/-- Big-endian 4-byte decoding, as `binary.BigEndian.Uint32` reads it. -/
def beDecode4 (b0 b1 b2 b3 : Nat) : Nat :=
  b0 * 2 ^ 24 + b1 * 2 ^ 16 + b2 * 2 ^ 8 + b3

/-- The non-negative integer a big-endian byte string denotes:
`new(big.Int).SetBytes`. -/
def beToNat (bytes : List Nat) : Nat :=
  bytes.foldl (fun acc b => acc * 256 + b) 0

/-- Fuelled worker for `minBE`: peels base-256 digits, least significant
last.  Fuel `n` suffices for every `n` because `n / 256 < n` for `n > 0`. -/
def minBEAux : Nat → Nat → List Nat
  | 0, _ => []
  | fuel + 1, n => if n = 0 then [] else minBEAux fuel (n / 256) ++ [n % 256]

/-- Minimal big-endian encoding of a non-negative integer, as Go's
`big.Int.Bytes` returns it: no leading zero byte, and the value 0 encodes as
the empty string. -/
def minBE (n : Nat) : List Nat :=
  minBEAux n n

/-! ## SHA-256 (crypto/sha256), FIPS 180-4, over `Nat` words reduced mod 2^32 -/

/-- Right rotation of a 32-bit word (`bits.RotateLeft32` with a negative
shift): the low `k` bits wrap around to the top. -/
def rotr32 (k x : Nat) : Nat :=
  x / 2 ^ k ||| x % 2 ^ k * 2 ^ (32 - k)

/-- SHA-256 message-schedule sigma-0. -/
def ssig0 (x : Nat) : Nat :=
  rotr32 7 x ^^^ rotr32 18 x ^^^ x / 2 ^ 3

/-- SHA-256 message-schedule sigma-1. -/
def ssig1 (x : Nat) : Nat :=
  rotr32 17 x ^^^ rotr32 19 x ^^^ x / 2 ^ 10

/-- SHA-256 round function Sigma-0. -/
def bsig0 (x : Nat) : Nat :=
  rotr32 2 x ^^^ rotr32 13 x ^^^ rotr32 22 x

/-- SHA-256 round function Sigma-1. -/
def bsig1 (x : Nat) : Nat :=
  rotr32 6 x ^^^ rotr32 11 x ^^^ rotr32 25 x

/-- SHA-256 choice function; complement taken within 32 bits. -/
def chFn (x y z : Nat) : Nat :=
  (x &&& y) ^^^ ((x ^^^ (2 ^ 32 - 1)) &&& z)

/-- SHA-256 majority function. -/
def majFn (x y z : Nat) : Nat :=
  (x &&& y) ^^^ (x &&& z) ^^^ (y &&& z)

/-- The 64 SHA-256 round constants. -/
def sha256K : List Nat :=
  [1116352408, 1899447441, 3049323471,
   3921009573, 961987163, 1508970993,
   2453635748, 2870763221, 3624381080,
   310598401, 607225278, 1426881987,
   1925078388, 2162078206, 2614888103,
   3248222580, 3835390401, 4022224774,
   264347078, 604807628, 770255983,
   1249150122, 1555081692, 1996064986,
   2554220882, 2821834349, 2952996808,
   3210313671, 3336571891, 3584528711,
   113926993, 338241895, 666307205,
   773529912, 1294757372, 1396182291,
   1695183700, 1986661051, 2177026350,
   2456956037, 2730485921, 2820302411,
   3259730800, 3345764771, 3516065817,
   3600352804, 4094571909, 275423344,
   430227734, 506948616, 659060556,
   883997877, 958139571, 1322822218,
   1537002063, 1747873779, 1955562222,
   2024104815, 2227730452, 2361852424,
   2428436474, 2756734187, 3204031479,
   3329325298]

/-- The SHA-256 initial hash value. -/
def sha256H0 : List Nat :=
  [1779033703, 3144134277, 1013904242,
   2773480762, 1359893119, 2600822924,
   528734635, 1541459225]

/-- SHA-256 padding: append 0x80, zeros to 56 mod 64, then the bit length as
8 big-endian bytes. -/
def sha256Pad (msg : List Nat) : List Nat :=
  msg ++ 0x80 :: List.replicate ((119 - msg.length % 64) % 64) 0
      ++ be64 (8 * msg.length)

/-- Split a byte list into chunks of 64; fuelled by the list's length, which
bounds the number of chunks. -/
def chunks64Aux : Nat → List Nat → List (List Nat)
  | 0, _ => []
  | _, [] => []
  | fuel + 1, x :: xs => (x :: xs).take 64 :: chunks64Aux fuel (xs.drop 63)

/-- Split a byte list into chunks of 64 bytes. -/
def chunks64 (l : List Nat) : List (List Nat) :=
  chunks64Aux l.length l

/-- Combine each run of 4 bytes of a 64-byte chunk into a big-endian 32-bit
word; fuelled like `chunks64Aux`. -/
def words4Aux : Nat → List Nat → List Nat
  | 0, _ => []
  | _, [] => []
  | fuel + 1, b0 :: bs =>
      beDecode4 b0 (bs.headD 0) ((bs.drop 1).headD 0) ((bs.drop 2).headD 0)
        :: words4Aux fuel (bs.drop 3)

/-- The 16 big-endian words of a 64-byte chunk. -/
def chunkWords (chunk : List Nat) : List Nat :=
  words4Aux chunk.length chunk

/-- Extend the 16-word message schedule by `k` further words. -/
def extendW : List Nat → Nat → List Nat
  | ws, 0 => ws
  | ws, k + 1 =>
      let i := ws.length
      let w := (ssig1 (ws.getD (i - 2) 0) + ws.getD (i - 7) 0
                + ssig0 (ws.getD (i - 15) 0) + ws.getD (i - 16) 0) % 2 ^ 32
      extendW (ws ++ [w]) k

/-- One SHA-256 round: state is the list `[a, b, c, d, e, f, g, h]` and `kw`
is the sum of the round constant and the schedule word. -/
def sha256Round (st : List Nat) (kw : Nat) : List Nat :=
  match st with
  | [a, b, c, d, e, f, g, h] =>
      let t1 := (h + bsig1 e + chFn e f g + kw) % 2 ^ 32
      let t2 := (bsig0 a + majFn a b c) % 2 ^ 32
      [(t1 + t2) % 2 ^ 32, a, b, c, (d + t1) % 2 ^ 32, e, f, g]
  | other => other

/-- Compress one 64-byte chunk into the running hash value. -/
def sha256Compress (h : List Nat) (chunk : List Nat) : List Nat :=
  let ws := extendW (chunkWords chunk) 48
  let kws := List.zipWith (fun k w => (k + w) % 2 ^ 32) sha256K ws
  let st := kws.foldl sha256Round h
  List.zipWith (fun x y => (x + y) % 2 ^ 32) h st

/-- SHA-256 of a byte string, as a list of 32 bytes: `sha256.Sum256`. -/
def sha256 (msg : List Nat) : List Nat :=
  ((chunks64 (sha256Pad msg)).foldl sha256Compress sha256H0).foldr
    (fun w acc => be32 w ++ acc) []

/-! ## PoW engine (pkg/pow/eccpow.go) -/

/-- A PoW challenge as the server holds it: the P-256 point coordinates as
non-negative integers and the difficulty as a machine integer.  The curve
itself does not participate in verification and is not modelled. -/
structure Challenge where
  Qx : Nat
  Qy : Nat
  Difficulty : Int
deriving DecidableEq

/-- Error result of `VerifySolution`. -/
inductive PowError
  | hashBelowDifficulty
deriving DecidableEq

/-- The most-significant-bit-first bit sequence of a byte string, the order in
which `HasLeadingZeroBits` scans the hash. -/
def toBits (bytes : List Nat) : List Nat :=
  bytes.flatMap (fun b => (List.range 8).map (fun i => b / 2 ^ (7 - i) % 2))

/-- The loop of `HasLeadingZeroBits`, over the flattened bit sequence:
`bitIndex` counts the zero bits already seen; reaching `bits` returns true,
a set bit returns false, and after the last bit the final comparison
`bitIndex >= bits` decides. -/
def leadingLoop : List Nat → Int → Nat → Bool
  | [], bits, bitIndex => bits ≤ (bitIndex : Int)
  | b :: rest, bits, bitIndex =>
      if bits ≤ (bitIndex : Int) then true
      else if b ≠ 0 then false
      else leadingLoop rest bits (bitIndex + 1)

/-- `pow.HasLeadingZeroBits`: does the hash have at least `bits` leading zero
bits, counted most-significant bit first from byte 0? -/
def HasLeadingZeroBits (hash : List Nat) (bits : Int) : Bool :=
  leadingLoop (toBits hash) bits 0

/-- `pow.VerifySolution`: hash the concatenation of the minimal big-endian
coordinate encodings and the nonce bytes, and check the difficulty
predicate. -/
def VerifySolution (challenge : Challenge) (nonceBytes : List Nat) :
    Except PowError Unit :=
  let hashInput := minBE challenge.Qx ++ minBE challenge.Qy ++ nonceBytes
  let hash := sha256 hashInput
  if ¬ HasLeadingZeroBits hash challenge.Difficulty then
    Except.error PowError.hashBelowDifficulty
  else
    Except.ok ()

/-- The wire form of a challenge (`network.Challenge`): raw byte strings for
the coordinates and an `int32` difficulty.  The `curve` string field plays no
role in solving and is omitted. -/
structure NetChallenge where
  qx : List Nat
  qy : List Nat
  difficulty : Int
deriving DecidableEq

/-- The nonce-search loop of `pow.SolveChallenge`: try `n`, `n+1`, … while
`fuel` iterations remain.  `base` is the concatenated minimal big-endian
coordinate encodings. -/
def solveLoop (base : List Nat) (difficulty : Int) :
    Nat → Nat → Option (List Nat)
  | 0, _ => none
  | fuel + 1, n =>
      if HasLeadingZeroBits (sha256 (base ++ minBE n)) difficulty then
        some (minBE n)
      else
        solveLoop base difficulty fuel (n + 1)

/-- `pow.SolveChallenge`: decode the coordinates with `SetBytes`, re-encode
them minimally, and search nonces `0, 1, 2, …` below `2^64`, returning the
first valid nonce's minimal big-endian bytes, or `none` ("no valid solution
found") when all `2^64` candidates fail. -/
def SolveChallenge (c : NetChallenge) : Option (List Nat) :=
  solveLoop (minBE (beToNat c.qx) ++ minBE (beToNat c.qy)) c.difficulty
    (2 ^ 64) 0

/-- Validity of the `n`-th nonce for a wire challenge, as `SolveChallenge`
tests it. -/
def nonceValid (c : NetChallenge) (n : Nat) : Prop :=
  HasLeadingZeroBits
    (sha256 ((minBE (beToNat c.qx) ++ minBE (beToNat c.qy)) ++ minBE n))
    c.difficulty = true

instance (c : NetChallenge) (n : Nat) : Decidable (nonceValid c n) := by
  unfold nonceValid; infer_instance

/-- The number of leading zero bits of a bit sequence — the specification's
counting definition, against which the source loop is measured. -/
def leadingZeroCount : List Nat → Nat
  | [] => 0
  | b :: rest => if b = 0 then leadingZeroCount rest + 1 else 0

deriving instance DecidableEq for Except

/-! ## Framing (pkg/protocol/protocol.go) -/

/-- `protocol.MaxMessageSize`: 5 MiB. -/
def MaxMessageSize : Nat := 5 * 1024 * 1024

/-- `protocol.WriteMessage` on a connection that accepts every write: the Go
code converts `len(data)` to `uint32` (reduction modulo `2 ^ 32`), rejects a
converted length above `MaxMessageSize`, and otherwise emits the 4-byte
big-endian length header followed by the body. -/
def WriteMessage (data : List Nat) : Option (List Nat) :=
  let length := data.length % 2 ^ 32
  if MaxMessageSize < length then none
  else some (be32 length ++ data)

/-- `protocol.ReadMessage` over the byte stream `s`: read exactly 4 header
bytes (`io.ReadFull` fails on a shorter stream), decode the big-endian
length, reject a length above `MaxMessageSize`, read exactly that many body
bytes, and return the body together with the unread remainder of the
stream. -/
def ReadMessage (s : List Nat) : Option (List Nat × List Nat) :=
  match s with
  | b0 :: b1 :: b2 :: b3 :: rest =>
      let length := beDecode4 b0 b1 b2 b3
      if MaxMessageSize < length then none
      else if rest.length < length then none
      else some (rest.take length, rest.drop length)
  | _ => none

/-! ## Rate limiter (pkg/ratelimiter/ratelimiter.go)

Counters are `float64` and instants are `time.Time` in Go; both are modelled
in one linear ordered field `F`: rationals where only comparisons happen,
reals where `math.Exp` enters.  Instants are in seconds, so
`time.Duration.Seconds` is subtraction and `1 * time.Minute` is 60. -/

/-- `ratelimiter.maxErrBan`. -/
def maxErrBan : Nat := 10

/-- `ratelimiter.ClientInfo`. -/
structure ClientInfo (F : Type) where
  requestCount : F
  errorCount : F
  lastSeen : F
  lastError : F
  bannedUntil : F
deriving DecidableEq

/-- The `clients` map of a `RateLimiter`, keyed by client IP string. -/
def RLState (F : Type) := String → Option (ClientInfo F)

/-- The empty client map `make(map[string]*ClientInfo)`. -/
def emptyRL (F : Type) : RLState F := fun _ => none

/-- Store a record under a key. -/
def rlInsert {F : Type} (st : RLState F) (clientID : String)
    (info : ClientInfo F) : RLState F :=
  fun id => if id = clientID then some info else st id

/-- `ratelimiter.ClientAction`. -/
inductive ClientAction
  | allow
  | increaseDifficulty
  | ban
deriving DecidableEq

/-- `RateLimiter.GetClientAction`, as a function of the current instant and
the client map; returns the action and the possibly updated map.  A client
with no record is allowed and nothing is written.  A client whose
`BannedUntil` is after `now` is banned.  Past that, an error count above
`maxErrBan` bans, extending `BannedUntil` to `now` plus one minute only when
it is the zero instant or strictly before `now`; an error count above
`maxErrBan / 2` (integer division: 5) raises difficulty; otherwise the
client is allowed. -/
def GetClientAction {F : Type} [LinearOrderedField F] (clientID : String)
    (now : F) (st : RLState F) : ClientAction × RLState F :=
  match st clientID with
  | none => (ClientAction.allow, st)
  | some info =>
      if now < info.bannedUntil then (ClientAction.ban, st)
      else if (maxErrBan : F) < info.errorCount then
        if info.bannedUntil = 0 ∨ info.bannedUntil < now then
          (ClientAction.ban,
            rlInsert st clientID { info with bannedUntil := now + 60 })
        else (ClientAction.ban, st)
      else if ((maxErrBan / 2 : Nat) : F) < info.errorCount then
        (ClientAction.increaseDifficulty, st)
      else (ClientAction.allow, st)

/-- `RateLimiter.Cleanup`: delete every record whose `LastSeen` lies more
than `inactiveDuration` before `now` and whose `BannedUntil` is strictly
before `now` (`now.After`); every other record is kept unchanged. -/
def Cleanup {F : Type} [LinearOrderedField F] (now inactiveDuration : F)
    (st : RLState F) : RLState F :=
  fun id =>
    match st id with
    | none => none
    | some info =>
        if inactiveDuration < now - info.lastSeen ∧ info.bannedUntil < now
        then none
        else some info

/-- `RateLimiter.UpdateRequestRate` over the reals, with decay rate
`lam = ln 2 / halfLifeSeconds`: a missing record is created with a zero
count and `LastSeen := now`, then the count is decayed from `LastSeen` by
`exp (-lam * deltaTime)` and incremented; returns the new count and map. -/
noncomputable def UpdateRequestRate (lam : ℝ) (clientID : String) (now : ℝ)
    (st : RLState ℝ) : ℝ × RLState ℝ :=
  let info : ClientInfo ℝ :=
    match st clientID with
    | none =>
        { requestCount := 0, errorCount := 0, lastSeen := now,
          lastError := 0, bannedUntil := 0 }
    | some i => i
  let deltaTime := now - info.lastSeen
  let decayFactor := Real.exp (-lam * deltaTime)
  let newCount := info.requestCount * decayFactor + 1
  (newCount,
    rlInsert st clientID { info with requestCount := newCount, lastSeen := now })

/-- `RateLimiter.UpdateErrorCount` over the reals: a missing record is
created with `ErrorCount := 1` and both instants set to `now` and returned
at once; otherwise the count is decayed from `LastError` by
`exp (-lam * deltaTime)` and incremented. -/
noncomputable def UpdateErrorCount (lam : ℝ) (clientID : String) (now : ℝ)
    (st : RLState ℝ) : ℝ × RLState ℝ :=
  match st clientID with
  | none =>
      (1, rlInsert st clientID
        { requestCount := 0, errorCount := 1, lastSeen := now,
          lastError := now, bannedUntil := 0 })
  | some info =>
      let deltaTime := now - info.lastError
      let decayFactor := Real.exp (-lam * deltaTime)
      let newCount := info.errorCount * decayFactor + 1
      (newCount,
        rlInsert st clientID
          { info with errorCount := newCount, lastError := now })

/-- Run `UpdateErrorCount` once per event instant, in order. -/
noncomputable def runErrorEvents (lam : ℝ) (clientID : String)
    (st : RLState ℝ) (times : List ℝ) : RLState ℝ :=
  times.foldl (fun s t => (UpdateErrorCount lam clientID t s).2) st

/-- Run `UpdateRequestRate` once per event instant, in order. -/
noncomputable def runRequestEvents (lam : ℝ) (clientID : String)
    (st : RLState ℝ) (times : List ℝ) : RLState ℝ :=
  times.foldl (fun s t => (UpdateRequestRate lam clientID t s).2) st

/-- `NewRateLimiter`: the decay rate is `ln 2` over the half-life in
seconds. -/
noncomputable def decayRate (halfLifeSeconds : ℝ) : ℝ :=
  Real.log 2 / halfLifeSeconds

/-! ## Server difficulty policy (cmd/server/main.go, internal/server/server.go) -/

/-- Go's conversion of a `float64` to `int`: truncation toward zero. -/
def goTrunc (q : ℚ) : Int :=
  if 0 ≤ q then ⌊q⌋ else ⌈q⌉

/-- The `difficultyFunc` closure of `cmd/server/main.go`: up to a request
count of 220, one level per 10 requests with a floor of 1 (the value of
`math.Ceil` is integral, so the `int` conversion is exact); above 220, one
further level per 100 requests, truncated. -/
def difficultyFunc (requestCount : ℚ) : Int :=
  if requestCount ≤ 220 then
    let difficulty := ⌈requestCount / 10⌉
    if difficulty < 1 then 1 else difficulty
  else
    22 + goTrunc ((requestCount - 220) / 100)

/-- `Server.calculateDifficulty`: the base difficulty from `DifficultyFunc`,
plus one when the rate limiter asked to increase difficulty. -/
def calculateDifficulty (requestCount : ℚ) (action : ClientAction) : Int :=
  let baseDifficulty := difficultyFunc requestCount
  if action = ClientAction.increaseDifficulty then baseDifficulty + 1
  else baseDifficulty

/-! ## Server solution path (internal/server/server.go, `handleConnection`) -/

/-- `network.MessageType_SOLUTION` (enum value 1 in network.proto). -/
def solutionMessageType : Nat := 1

/-- The outer `network.Message` envelope: a type tag and a payload. -/
structure GoMessage where
  msgType : Nat
  payload : List Nat
deriving DecidableEq

/-- The protobuf decoders the handler calls (`proto.Unmarshal` into
`network.Message` and `network.Solution`); generated code outside this
repository's sources, so the handler is parameterised over them.  `none` is
an unmarshalling error. -/
structure ProtoCodec where
  decodeMessage : List Nat → Option GoMessage
  decodeSolution : List Nat → Option (List Nat)

/-- The failures `receiveAndVerifySolution` can surface, in source order:
the framed read failed, the envelope did not unmarshal, its type was not
SOLUTION, the solution payload did not unmarshal, or the nonce failed
verification. -/
inductive SolutionError
  | readFailed
  | badMessage
  | wrongMessageType
  | badSolutionFormat
  | invalidSolution
deriving DecidableEq

/-- `Server.receiveAndVerifySolution`: read one framed message from the
stream, decode the envelope, require type SOLUTION, decode the solution, and
verify the nonce against the challenge. -/
def receiveAndVerifySolution (codec : ProtoCodec) (challenge : Challenge)
    (stream : List Nat) : Except SolutionError Unit :=
  match ReadMessage stream with
  | none => Except.error SolutionError.readFailed
  | some (data, _) =>
      match codec.decodeMessage data with
      | none => Except.error SolutionError.badMessage
      | some message =>
          if message.msgType ≠ solutionMessageType then
            Except.error SolutionError.wrongMessageType
          else
            match codec.decodeSolution message.payload with
            | none => Except.error SolutionError.badSolutionFormat
            | some nonce =>
                match VerifySolution challenge nonce with
                | Except.error _ => Except.error SolutionError.invalidSolution
                | Except.ok _ => Except.ok ()

/-- The solution step of `Server.handleConnection`, restricted to its effect
on the rate-limiter state: when `receiveAndVerifySolution` returns any
error, the handler calls `RateLimiter.UpdateErrorCount` for the client (then
sends "Invalid solution" and closes); on success the map is untouched. -/
noncomputable def solutionPhase (codec : ProtoCodec) (lam : ℝ)
    (challenge : Challenge) (clientIP : String) (now : ℝ) (stream : List Nat)
    (st : RLState ℝ) : RLState ℝ :=
  match receiveAndVerifySolution codec challenge stream with
  | Except.error _ => (UpdateErrorCount lam clientIP now st).2
  | Except.ok _ => st

/-- A concrete codec to instantiate closed statements with; the statements
that use it fail before any decoding happens, so its answers are never
consulted. -/
def rejectCodec : ProtoCodec where
  decodeMessage := fun _ => none
  decodeSolution := fun _ => none

/-- The 4-byte header announcing a frame of `5 * 2^20 + 1` bytes, one more
than `MaxMessageSize`: the specification's oversize-frame scenario. -/
def oversizeHeader : List Nat := [0, 80, 0, 1]

/-- The client IP used in concrete instances. -/
def ipA : String := "a"

/-- The rate-limiter record of the C3 counterexample: eleven errors and a
ban that expires exactly at the instant of the call. -/
def c3Info : ClientInfo ℚ := ⟨0, 11, 0, 0, 100⟩

/-- A client map holding only `c3Info`. -/
def c3State : RLState ℚ := rlInsert (emptyRL ℚ) ipA c3Info

/-- The rate-limiter record of the C3 witness: seven errors, never banned. -/
def c3WInfo : ClientInfo ℚ := ⟨0, 7, 0, 0, 0⟩

/-- A client map holding only `c3WInfo`. -/
def c3WState : RLState ℚ := rlInsert (emptyRL ℚ) ipA c3WInfo

/-- The record of the C8 counterexample: long inactive, ban expiring exactly
at the instant of the cleanup. -/
def c8Info : ClientInfo ℚ := ⟨0, 0, 0, 0, 100⟩

/-- A client map holding only `c8Info`. -/
def c8State : RLState ℚ := rlInsert (emptyRL ℚ) ipA c8Info

/-- The rate-limiter record of the C4 witness. -/
noncomputable def c4WInfo : ClientInfo ℝ := ⟨2, 3, 5, 7, 0⟩

/-- A client map holding only `c4WInfo`. -/
noncomputable def c4WState : RLState ℝ := rlInsert (emptyRL ℝ) ipA c4WInfo

/-! ## Theorems -/

/-- The loop of `HasLeadingZeroBits`, resumed with `bitIndex = k` on the
remaining bit sequence `l`, accepts exactly when `bits` is at most `k` plus
the number of leading zeros of `l`. -/
theorem leadingLoop_iff (l : List Nat) :
    ∀ (bits : Int) (k : Nat),
      leadingLoop l bits k = true ↔ bits ≤ (k : Int) + leadingZeroCount l := by
  induction l with
  | nil =>
      intro bits k
      simp [leadingLoop, leadingZeroCount]
  | cons b rest ih =>
      intro bits k
      rw [leadingLoop]
      by_cases h1 : bits ≤ (k : Int)
      · simp only [if_pos h1, true_iff]
        have : (0 : Int) ≤ leadingZeroCount (b :: rest) := Int.natCast_nonneg _
        omega
      · rw [if_neg h1]
        by_cases h2 : b = 0
        · subst h2
          rw [if_neg (by simp), ih bits (k + 1)]
          simp only [leadingZeroCount, if_pos rfl]
          push_cast
          omega
        · rw [if_pos (by simpa using h2)]
          simp only [leadingZeroCount, if_neg h2, Nat.cast_zero, add_zero,
            Bool.false_eq_true, false_iff]
          exact h1

/-- `HasLeadingZeroBits hash bits` holds exactly when the hash's bit string
has at least `bits` leading zero bits, counted most-significant bit first
from byte 0. -/
theorem hasLeadingZeroBits_iff (hash : List Nat) (bits : Int) :
    HasLeadingZeroBits hash bits = true ↔
      bits ≤ (leadingZeroCount (toBits hash) : Int) := by
  have h := leadingLoop_iff (toBits hash) bits 0
  simpa [HasLeadingZeroBits] using h

/-- C1: for every challenge `(Qx, Qy, difficulty ≥ 0)` and every nonce byte
string, `VerifySolution` returns OK if and only if
`SHA-256(min-be(Qx) || min-be(Qy) || nonce)` has at least `difficulty`
leading zero bits, counted most-significant bit first from byte 0. -/
theorem C1_verifySolution_ok_iff_leading_zero_bits (Qx Qy : Nat)
    (difficulty : Int) (hd : 0 ≤ difficulty) (nonce : List Nat) :
    VerifySolution ⟨Qx, Qy, difficulty⟩ nonce = Except.ok () ↔
      difficulty ≤
        (leadingZeroCount (toBits (sha256 (minBE Qx ++ minBE Qy ++ nonce)))
          : Int) := by
  rw [← hasLeadingZeroBits_iff]
  simp only [VerifySolution]
  split_ifs with h
  · simpa using h
  · simpa using h

/-- Witness for C1 at the concrete challenge `(0, 0, 0)` and the empty
nonce: the hypothesis `0 ≤ difficulty` holds and the equivalence is an
instance of the theorem. -/
theorem C1_witness :
    (0 : Int) ≤ 0
    ∧ (VerifySolution ⟨0, 0, 0⟩ [] = Except.ok () ↔
        (0 : Int) ≤
          (leadingZeroCount (toBits (sha256 (minBE 0 ++ minBE 0 ++ [])))
            : Int)) :=
  ⟨by decide, C1_verifySolution_ok_iff_leading_zero_bits 0 0 0 (by decide) []⟩

/-- C9: `VerifySolution` never rejects a nonce for its length or encoding:
for every challenge and every nonce byte string — with no restriction on
length, emptiness or leading zero bytes, and none on the difficulty —
acceptance is decided solely by the SHA-256 hash of the challenge point
bytes concatenated with the nonce: equal hash inputs give equal verdicts,
and the verdict is OK exactly when the hash meets the leading-zero-bits
difficulty predicate. -/
theorem C9_verify_decided_solely_by_hash :
    (∀ (c : Challenge) (n1 n2 : List Nat),
        sha256 (minBE c.Qx ++ minBE c.Qy ++ n1)
            = sha256 (minBE c.Qx ++ minBE c.Qy ++ n2) →
        VerifySolution c n1 = VerifySolution c n2)
    ∧ (∀ (c : Challenge) (nonce : List Nat),
        VerifySolution c nonce = Except.ok () ↔
          c.Difficulty ≤
            (leadingZeroCount
              (toBits (sha256 (minBE c.Qx ++ minBE c.Qy ++ nonce))) : Int)) := by
  constructor
  · intro c n1 n2 hhash
    simp only [VerifySolution]
    rw [hhash]
  · intro c nonce
    rw [← hasLeadingZeroBits_iff]
    simp only [VerifySolution]
    split_ifs with h
    · simpa using h
    · simpa using h

/-- When the nonce-search loop starting at `n` with `fuel` iterations left
returns a nonce encoding, it is the minimal big-endian encoding of the first
valid candidate at or after `n` within the fuel bound. -/
theorem solveLoop_some_spec (base : List Nat) (difficulty : Int) :
    ∀ (fuel n : Nat) (nb : List Nat), solveLoop base difficulty fuel n = some nb →
      ∃ m, n ≤ m ∧ m < n + fuel ∧ nb = minBE m
        ∧ HasLeadingZeroBits (sha256 (base ++ minBE m)) difficulty = true
        ∧ ∀ k, n ≤ k → k < m →
            HasLeadingZeroBits (sha256 (base ++ minBE k)) difficulty = false := by
  intro fuel
  induction fuel with
  | zero =>
      intro n nb h
      simp [solveLoop] at h
  | succ fuel ih =>
      intro n nb h
      rw [solveLoop] at h
      by_cases hc : HasLeadingZeroBits (sha256 (base ++ minBE n)) difficulty = true
      · rw [if_pos hc] at h
        refine ⟨n, le_refl n, by omega, by simpa using h.symm, hc, ?_⟩
        intro k hk1 hk2
        omega
      · rw [if_neg hc] at h
        obtain ⟨m, hm1, hm2, hm3, hm4, hm5⟩ := ih (n + 1) nb h
        refine ⟨m, by omega, by omega, hm3, hm4, ?_⟩
        intro k hk1 hk2
        by_cases hkn : k = n
        · subst hkn
          simpa using hc
        · exact hm5 k (by omega) hk2

/-- The nonce-search loop starting at `n` with `fuel` iterations left comes
back empty exactly when no candidate in its window is valid. -/
theorem solveLoop_none_iff (base : List Nat) (difficulty : Int) :
    ∀ (fuel n : Nat), solveLoop base difficulty fuel n = none ↔
      ∀ m, n ≤ m → m < n + fuel →
        HasLeadingZeroBits (sha256 (base ++ minBE m)) difficulty = false := by
  intro fuel
  induction fuel with
  | zero =>
      intro n
      constructor
      · intro _ m hm1 hm2
        omega
      · intro _
        simp [solveLoop]
  | succ fuel ih =>
      intro n
      rw [solveLoop]
      by_cases hc : HasLeadingZeroBits (sha256 (base ++ minBE n)) difficulty = true
      · rw [if_pos hc]
        constructor
        · intro h
          cases h
        · intro h
          have := h n (le_refl n) (by omega)
          rw [hc] at this
          cases this
      · rw [if_neg hc]
        rw [ih (n + 1)]
        constructor
        · intro h m hm1 hm2
          by_cases hmn : m = n
          · subst hmn
            simpa using hc
          · exact h m (by omega) (by omega)
        · intro h m hm1 hm2
          exact h m (by omega) (by omega)

/-- A nonce hit by the search is accepted by `VerifySolution` on the
challenge whose coordinates are the `SetBytes` decodings of the wire
bytes. -/
theorem verifySolution_of_hit (X Y : Nat) (difficulty : Int) (n : Nat)
    (h : HasLeadingZeroBits (sha256 ((minBE X ++ minBE Y) ++ minBE n))
          difficulty = true) :
    VerifySolution ⟨X, Y, difficulty⟩ (minBE n) = Except.ok () := by
  simp only [VerifySolution]
  rw [if_neg]
  simp only [not_not, ← List.append_assoc]
  exact h

/-- C2: `SolveChallenge` enumerates nonces `0, 1, 2, …` in minimal
big-endian encoding and returns the encoding of the first valid one; the
search is bounded to `2^64` attempts and returns an error exactly when no
nonce below `2^64` is valid; any returned nonce is accepted by
`VerifySolution` for the same challenge. -/
theorem C2_solveChallenge_spec (c : NetChallenge) :
    (∀ nb, SolveChallenge c = some nb →
        ∃ n, n < 2 ^ 64 ∧ nb = minBE n ∧ nonceValid c n
          ∧ (∀ m, m < n → ¬ nonceValid c m)
          ∧ VerifySolution ⟨beToNat c.qx, beToNat c.qy, c.difficulty⟩ nb
              = Except.ok ())
    ∧ (SolveChallenge c = none ↔ ∀ n, n < 2 ^ 64 → ¬ nonceValid c n) := by
  constructor
  · intro nb h
    obtain ⟨m, _, hm2, hm3, hm4, hm5⟩ :=
      solveLoop_some_spec (minBE (beToNat c.qx) ++ minBE (beToNat c.qy))
        c.difficulty (2 ^ 64) 0 nb h
    refine ⟨m, by omega, hm3, hm4, ?_, ?_⟩
    · intro k hk
      rw [nonceValid, hm5 k (by omega) hk]
      simp
    · rw [hm3]
      exact verifySolution_of_hit (beToNat c.qx) (beToNat c.qy) c.difficulty m hm4
  · rw [SolveChallenge, solveLoop_none_iff]
    constructor
    · intro h n hn
      rw [nonceValid, h n (by omega) (by omega)]
      simp
    · intro h m _ hm2
      have := h m (by omega)
      rw [nonceValid] at this
      simpa using this

set_option maxRecDepth 100000 in
/-- Witness for C2 at the concrete wire challenge with empty coordinate
bytes and difficulty 0: the search returns the empty encoding (nonce 0) and
the theorem's conclusions hold for it. -/
theorem C2_witness :
    SolveChallenge ⟨[], [], 0⟩ = some []
    ∧ ∃ n, n < 2 ^ 64 ∧ ([] : List Nat) = minBE n ∧ nonceValid ⟨[], [], 0⟩ n
        ∧ (∀ m, m < n → ¬ nonceValid ⟨[], [], 0⟩ m)
        ∧ VerifySolution ⟨beToNat [], beToNat [], 0⟩ [] = Except.ok () := by
  have h : SolveChallenge ⟨[], [], 0⟩ = some [] := by decide
  exact ⟨h, (C2_solveChallenge_spec ⟨[], [], 0⟩).1 [] h⟩

/-- C3 (amended): for a client with a record, `GetClientAction` returns BAN
while `banned_until` is in the future, regardless of the error count; past
that, an error count above 10 returns BAN, setting `banned_until` to `now`
plus one minute only when it is the zero instant or strictly before `now`
(in particular, a ban that expires exactly at `now` is not extended); an
error count above 5 returns RAISE; otherwise ALLOW.  In every case but the
ban extension the map is unchanged. -/
theorem C3_getClientAction_amended {F : Type} [LinearOrderedField F]
    (clientID : String) (now : F) (st : RLState F) (info : ClientInfo F)
    (h : st clientID = some info) :
    (now < info.bannedUntil →
        GetClientAction clientID now st = (ClientAction.ban, st))
    ∧ (¬ now < info.bannedUntil → (maxErrBan : F) < info.errorCount →
        (GetClientAction clientID now st).1 = ClientAction.ban
        ∧ ((info.bannedUntil = 0 ∨ info.bannedUntil < now) →
            (GetClientAction clientID now st).2
              = rlInsert st clientID { info with bannedUntil := now + 60 })
        ∧ (info.bannedUntil ≠ 0 → ¬ info.bannedUntil < now →
            (GetClientAction clientID now st).2 = st))
    ∧ (¬ now < info.bannedUntil → ¬ (maxErrBan : F) < info.errorCount →
        (5 : F) < info.errorCount →
        GetClientAction clientID now st
          = (ClientAction.increaseDifficulty, st))
    ∧ (¬ now < info.bannedUntil → ¬ (maxErrBan : F) < info.errorCount →
        ¬ (5 : F) < info.errorCount →
        GetClientAction clientID now st = (ClientAction.allow, st)) := by
  refine ⟨?_, ?_, ?_, ?_⟩
  · intro h1
    simp only [GetClientAction, h, if_pos h1]
  · intro h1 h2
    refine ⟨?_, ?_, ?_⟩
    · simp only [GetClientAction, h, if_neg h1, if_pos h2]
      split_ifs <;> rfl
    · intro h3
      simp only [GetClientAction, h, if_neg h1, if_pos h2, if_pos h3]
    · intro h3 h4
      have hnot : ¬ (info.bannedUntil = 0 ∨ info.bannedUntil < now) := by
        intro hor
        rcases hor with h0 | hlt
        · exact h3 h0
        · exact h4 hlt
      simp only [GetClientAction, h, if_neg h1, if_pos h2, if_neg hnot]
  · intro h1 h2 h3
    have h5 : ((maxErrBan / 2 : Nat) : F) < info.errorCount := by
      have : (maxErrBan / 2 : Nat) = 5 := by decide
      rw [this]
      exact_mod_cast h3
    simp only [GetClientAction, h, if_neg h1, if_neg h2, if_pos h5]
  · intro h1 h2 h3
    have h5 : ¬ ((maxErrBan / 2 : Nat) : F) < info.errorCount := by
      have : (maxErrBan / 2 : Nat) = 5 := by decide
      rw [this]
      exact_mod_cast h3
    simp only [GetClientAction, h, if_neg h1, if_neg h2, if_neg h5]

/-- Counterexample to C3 as stated: at `now = 100`, the record `c3Info` has
`error_count = 11 > 10` and a `banned_until` of exactly `now` — not in the
future — so the claim requires `banned_until := now + 1 minute`; the code
returns BAN but leaves `banned_until` at 100, because it extends the ban
only when `banned_until` is zero or strictly before `now`. -/
theorem C3_counterexample :
    c3State ipA = some c3Info
    ∧ ¬ (100 : ℚ) < c3Info.bannedUntil
    ∧ (maxErrBan : ℚ) < c3Info.errorCount
    ∧ (GetClientAction ipA (100 : ℚ) c3State).1 = ClientAction.ban
    ∧ (GetClientAction ipA (100 : ℚ) c3State).2 ipA = some c3Info
    ∧ c3Info.bannedUntil ≠ (100 : ℚ) + 60 := by
  refine ⟨by simp [c3State, rlInsert], by norm_num [c3Info], by norm_num [c3Info, maxErrBan], ?_, ?_, by norm_num [c3Info]⟩
  · norm_num [GetClientAction, c3State, rlInsert, emptyRL, c3Info, maxErrBan]
  · norm_num [GetClientAction, c3State, rlInsert, emptyRL, c3Info, maxErrBan]

/-- Witness for C3's amended theorem: a client with seven errors and no ban
gets RAISE and the map is unchanged. -/
theorem C3_witness :
    c3WState ipA = some c3WInfo
    ∧ GetClientAction ipA (5 : ℚ) c3WState
        = (ClientAction.increaseDifficulty, c3WState) := by
  have h : c3WState ipA = some c3WInfo := by simp [c3WState, rlInsert]
  refine ⟨h, ?_⟩
  exact (C3_getClientAction_amended ipA (5 : ℚ) c3WState c3WInfo h).2.2.1
    (by norm_num [c3WInfo]) (by norm_num [c3WInfo, maxErrBan])
    (by norm_num [c3WInfo])

/-- C8 (amended): `Cleanup` keeps a record exactly when it was present and
it is not the case that its `last_seen` is older than `now - delta` and its
`banned_until` is strictly before `now`; in particular it removes exactly
the records that are both inactive for longer than `delta` and whose ban
expired strictly before `now`, and keeps every other record unchanged. -/
theorem C8_cleanup_amended {F : Type} [LinearOrderedField F]
    (now delta : F) (st : RLState F) (clientID : String)
    (info : ClientInfo F) :
    Cleanup now delta st clientID = some info ↔
      st clientID = some info
      ∧ ¬ (info.lastSeen < now - delta ∧ info.bannedUntil < now) := by
  cases hst : st clientID with
  | none => simp [Cleanup, hst]
  | some info0 =>
      simp only [Cleanup, hst]
      by_cases hc : delta < now - info0.lastSeen ∧ info0.bannedUntil < now
      · rw [if_pos hc]
        constructor
        · intro h
          cases h
        · intro ⟨h1, h2⟩
          cases h1
          exact absurd ⟨by linarith [hc.1], hc.2⟩ h2
      · rw [if_neg hc]
        constructor
        · intro h
          cases h
          exact ⟨rfl, fun hcontra => hc ⟨by linarith [hcontra.1], hcontra.2⟩⟩
        · intro ⟨h1, _⟩
          cases h1
          rfl

/-- Counterexample to C8 as stated: at `now = 100` with `delta = 10`, the
record `c8Info` has `last_seen = 0`, older than `now - delta = 90`, and
`banned_until = 100`, which is at (not after) `now`; the claim requires its
removal, but `Cleanup` keeps it because it only removes records whose ban
expired strictly before `now`. -/
theorem C8_counterexample :
    c8Info.lastSeen < (100 : ℚ) - 10
    ∧ c8Info.bannedUntil ≤ (100 : ℚ)
    ∧ Cleanup (100 : ℚ) 10 c8State ipA = some c8Info := by
  refine ⟨by norm_num [c8Info], by norm_num [c8Info], ?_⟩
  norm_num [Cleanup, c8State, rlInsert, emptyRL, c8Info]

/-- C10: `GetClientAction` for a client with no record returns ALLOW and
returns the client map untouched: no record is created and no existing
record changes. -/
theorem C10_getClientAction_no_record {F : Type} [LinearOrderedField F]
    (clientID : String) (now : F) (st : RLState F)
    (h : st clientID = none) :
    GetClientAction clientID now st = (ClientAction.allow, st) := by
  simp only [GetClientAction, h]

/-- Witness for C10: on the empty client map the hypothesis holds by
definition and the call allows without touching the map. -/
theorem C10_witness :
    emptyRL ℚ ipA = none
    ∧ GetClientAction ipA (0 : ℚ) (emptyRL ℚ)
        = (ClientAction.allow, emptyRL ℚ) :=
  ⟨rfl, C10_getClientAction_no_record ipA (0 : ℚ) (emptyRL ℚ) rfl⟩

/-- C5: the server's base difficulty is `max 1 ⌈r/10⌉` for a decayed
request rate `r ≤ 220` and `22 + ⌊(r − 220)/100⌋` for `r > 220`; the RAISE
action adds one; the result is never negative. -/
theorem C5_difficulty_policy (r : ℚ) (action : ClientAction) :
    (r ≤ 220 → calculateDifficulty r action
        = max 1 ⌈r / 10⌉
          + (if action = ClientAction.increaseDifficulty then 1 else 0))
    ∧ (220 < r → calculateDifficulty r action
        = 22 + ⌊(r - 220) / 100⌋
          + (if action = ClientAction.increaseDifficulty then 1 else 0))
    ∧ 0 ≤ calculateDifficulty r action := by
  have hb : (1 : Int) ≤ difficultyFunc r := by
    simp only [difficultyFunc]
    split_ifs with h1 h2
    · omega
    · omega
    · have h0 : (0 : ℚ) ≤ (r - 220) / 100 :=
        div_nonneg (by linarith) (by norm_num)
      rw [goTrunc, if_pos h0]
      have := Int.floor_nonneg.mpr h0
      omega
  refine ⟨?_, ?_, ?_⟩
  · intro h
    have hdf : difficultyFunc r = max 1 ⌈r / 10⌉ := by
      simp only [difficultyFunc, if_pos h]
      split_ifs with h2 <;> omega
    simp only [calculateDifficulty, hdf]
    split_ifs <;> omega
  · intro h
    have hdf : difficultyFunc r = 22 + ⌊(r - 220) / 100⌋ := by
      simp only [difficultyFunc, if_neg (not_le.mpr h)]
      rw [goTrunc, if_pos (div_nonneg (by linarith) (by norm_num))]
    simp only [calculateDifficulty, hdf]
    split_ifs <;> omega
  · simp only [calculateDifficulty]
    split_ifs <;> omega

/-- Witness for C5 at rate 15 and action ALLOW: the low branch applies and
gives `max 1 ⌈15/10⌉ = 2`. -/
theorem C5_witness :
    (15 : ℚ) ≤ 220
    ∧ calculateDifficulty 15 ClientAction.allow
        = max 1 ⌈(15 : ℚ) / 10⌉
          + (if ClientAction.allow = ClientAction.increaseDifficulty
             then 1 else 0) :=
  ⟨by norm_num, (C5_difficulty_policy 15 ClientAction.allow).1 (by norm_num)⟩

/-- Decoding the four big-endian digit bytes of a 32-bit value gives the
value back. -/
theorem beDecode4_be32 (l : Nat) (h : l < 2 ^ 32) :
    beDecode4 (l / 2 ^ 24 % 256) (l / 2 ^ 16 % 256) (l / 2 ^ 8 % 256)
      (l % 256) = l := by
  simp only [beDecode4]
  norm_num
  omega

/-- C6 (amended): for a body of at most `MaxMessageSize` bytes,
`WriteMessage` emits the 4-byte big-endian length header followed by the
body and `ReadMessage` recovers exactly the body, consuming the whole
frame; for a body longer than `MaxMessageSize` but shorter than `2^32`,
`WriteMessage` fails.  (The length is converted to `uint32` before the size
check, so a body of `2^32` or more bytes whose length reduced mod `2^32` is
small is not rejected.) -/
theorem C6_framing_amended (x : List Nat) :
    (x.length ≤ MaxMessageSize →
        WriteMessage x = some (be32 x.length ++ x)
        ∧ ReadMessage (be32 x.length ++ x) = some (x, []))
    ∧ (MaxMessageSize < x.length → x.length < 2 ^ 32 →
        WriteMessage x = none) := by
  constructor
  · intro h
    have hlt : x.length < 2 ^ 32 :=
      lt_of_le_of_lt h (by norm_num [MaxMessageSize])
    have hmod : x.length % 2 ^ 32 = x.length := Nat.mod_eq_of_lt hlt
    constructor
    · simp only [WriteMessage, hmod]
      rw [if_neg (not_lt.mpr h)]
    · have hdec : beDecode4 (x.length / 2 ^ 24 % 256)
          (x.length / 2 ^ 16 % 256) (x.length / 2 ^ 8 % 256)
          (x.length % 256) = x.length := beDecode4_be32 _ hlt
      simp only [be32, List.cons_append, List.nil_append, ReadMessage, hdec]
      rw [if_neg (not_lt.mpr h), if_neg (by omega)]
      simp
  · intro h1 h2
    simp only [WriteMessage, Nat.mod_eq_of_lt h2]
    rw [if_pos h1]

/-- Counterexample to C6 as stated: a body of `2^32` zero bytes is longer
than `MaxMessageSize`, yet `WriteMessage` does not fail, because Go first
converts the length to `uint32` — here to 0 — and only then compares it to
the cap. -/
theorem C6_counterexample :
    MaxMessageSize < (List.replicate (2 ^ 32) 0 : List Nat).length
    ∧ WriteMessage (List.replicate (2 ^ 32) 0) ≠ none := by
  constructor
  · norm_num [MaxMessageSize, List.length_replicate]
  · simp only [WriteMessage, List.length_replicate, Nat.mod_self]
    rw [if_neg (by norm_num [MaxMessageSize])]
    exact fun h => Option.noConfusion h

/-- Witness for C6: the one-byte body `[7]` round-trips through the
framing, and a body one byte over the cap is rejected. -/
theorem C6_witness :
    (WriteMessage [7] = some (be32 ([7] : List Nat).length ++ [7])
      ∧ ReadMessage (be32 ([7] : List Nat).length ++ [7]) = some ([7], []))
    ∧ WriteMessage (List.replicate (MaxMessageSize + 1) 0) = none :=
  ⟨(C6_framing_amended [7]).1 (by norm_num [MaxMessageSize]),
   (C6_framing_amended (List.replicate (MaxMessageSize + 1) 0)).2
     (by norm_num [MaxMessageSize, List.length_replicate])
     (by norm_num [MaxMessageSize, List.length_replicate])⟩

/-- C7 (amended): when the framed read of the client's message fails — an
oversize length prefix, a short or failed read — `handleConnection` takes
the same error path as an invalid solution: it increments the client's
error count via `UpdateErrorCount` (then sends "Invalid solution" and
closes); the error count is updated exactly when `receiveAndVerifySolution`
fails, whether from the read, envelope decoding, message type, solution
decoding or verification, and is untouched on success. -/
theorem C7_error_attribution_amended (codec : ProtoCodec) (lam : ℝ)
    (challenge : Challenge) (clientIP : String) (now : ℝ)
    (stream : List Nat) (st : RLState ℝ) :
    (ReadMessage stream = none →
        receiveAndVerifySolution codec challenge stream
            = Except.error SolutionError.readFailed
        ∧ solutionPhase codec lam challenge clientIP now stream st
            = (UpdateErrorCount lam clientIP now st).2)
    ∧ (∀ e, receiveAndVerifySolution codec challenge stream
            = Except.error e →
        solutionPhase codec lam challenge clientIP now stream st
          = (UpdateErrorCount lam clientIP now st).2)
    ∧ (receiveAndVerifySolution codec challenge stream = Except.ok () →
        solutionPhase codec lam challenge clientIP now stream st = st) := by
  refine ⟨?_, ?_, ?_⟩
  · intro h
    have h1 : receiveAndVerifySolution codec challenge stream
        = Except.error SolutionError.readFailed := by
      simp only [receiveAndVerifySolution, h]
    exact ⟨h1, by simp only [solutionPhase, h1]⟩
  · intro e he
    simp only [solutionPhase, he]
  · intro hok
    simp only [solutionPhase, hok]

/-- Counterexample to C7 as stated: the client's frame announces
`5·2^20 + 1` bytes, one over the cap, so the framed read fails; the claim
says the connection is closed without touching the client's error count,
but the handler runs the invalid-solution error path and the previously
absent record now carries an error count of 1. -/
theorem C7_counterexample :
    ReadMessage oversizeHeader = none
    ∧ emptyRL ℝ ipA = none
    ∧ solutionPhase rejectCodec 1 ⟨0, 0, 0⟩ ipA 0 oversizeHeader (emptyRL ℝ)
        ipA = some ⟨0, 1, 0, 0, 0⟩ := by
  refine ⟨?_, rfl, ?_⟩
  · norm_num [ReadMessage, oversizeHeader, beDecode4, MaxMessageSize]
  · norm_num [solutionPhase, receiveAndVerifySolution, ReadMessage,
      oversizeHeader, beDecode4, MaxMessageSize, UpdateErrorCount, rlInsert,
      emptyRL]

/-- Witness for C7's amended theorem: on the empty stream the read fails,
`receiveAndVerifySolution` reports the read failure, and the handler runs
`UpdateErrorCount`. -/
theorem C7_witness :
    ReadMessage ([] : List Nat) = none
    ∧ (receiveAndVerifySolution rejectCodec ⟨0, 0, 0⟩ []
          = Except.error SolutionError.readFailed
      ∧ solutionPhase rejectCodec 1 ⟨0, 0, 0⟩ ipA 0 [] (emptyRL ℝ)
          = (UpdateErrorCount 1 ipA 0 (emptyRL ℝ)).2) :=
  ⟨rfl,
   (C7_error_attribution_amended rejectCodec 1 ⟨0, 0, 0⟩ ipA 0 []
      (emptyRL ℝ)).1 rfl⟩

/-- Running the error-count update over the instants `ts ++ [tn]` from a
state that holds a record: the final record exists, its `lastError` is the
last instant `tn`, and its count is the decayed initial count plus the
decayed sum of the impulses. -/
theorem runErrorEvents_growth (lam : ℝ) (clientID : String) :
    ∀ (ts : List ℝ) (tn : ℝ) (st : RLState ℝ) (info : ClientInfo ℝ),
      st clientID = some info →
      ∃ fin, runErrorEvents lam clientID st (ts ++ [tn]) clientID = some fin
        ∧ fin.lastError = tn
        ∧ fin.errorCount
            = info.errorCount * Real.exp (-lam * (tn - info.lastError))
              + ((ts ++ [tn]).map
                  (fun ti => Real.exp (-lam * (tn - ti)))).sum := by
  intro ts
  induction ts with
  | nil =>
      intro tn st info hst
      refine ⟨{ info with
          errorCount :=
            info.errorCount * Real.exp (-lam * (tn - info.lastError)) + 1,
          lastError := tn }, ?_, rfl, ?_⟩
      · simp [runErrorEvents, UpdateErrorCount, hst, rlInsert]
      · simp [sub_self, Real.exp_zero]
  | cons t1 ts' ih =>
      intro tn st info hst
      have hst1 : (UpdateErrorCount lam clientID t1 st).2 clientID
          = some { info with
              errorCount :=
                info.errorCount * Real.exp (-lam * (t1 - info.lastError)) + 1,
              lastError := t1 } := by
        simp [UpdateErrorCount, hst, rlInsert]
      obtain ⟨fin, hf1, hf2, hf3⟩ := ih tn _ _ hst1
      have hstep :
          runErrorEvents lam clientID st ((t1 :: ts') ++ [tn]) clientID
            = runErrorEvents lam clientID
                ((UpdateErrorCount lam clientID t1 st).2) (ts' ++ [tn])
                clientID := by
        simp [runErrorEvents]
      refine ⟨fin, by rw [hstep]; exact hf1, hf2, ?_⟩
      rw [hf3]
      dsimp only
      simp only [List.cons_append, List.map_cons, List.sum_cons]
      have hexp :
          Real.exp (-lam * (t1 - info.lastError)) * Real.exp (-lam * (tn - t1))
            = Real.exp (-lam * (tn - info.lastError)) := by
        rw [← Real.exp_add]
        congr 1
        ring
      linear_combination info.errorCount * hexp

/-- Running the request-rate update over the instants `ts ++ [tn]` from a
state that holds a record: the final record exists, its `lastSeen` is the
last instant `tn`, and its count is the decayed initial count plus the
decayed sum of the impulses. -/
theorem runRequestEvents_growth (lam : ℝ) (clientID : String) :
    ∀ (ts : List ℝ) (tn : ℝ) (st : RLState ℝ) (info : ClientInfo ℝ),
      st clientID = some info →
      ∃ fin, runRequestEvents lam clientID st (ts ++ [tn]) clientID = some fin
        ∧ fin.lastSeen = tn
        ∧ fin.requestCount
            = info.requestCount * Real.exp (-lam * (tn - info.lastSeen))
              + ((ts ++ [tn]).map
                  (fun ti => Real.exp (-lam * (tn - ti)))).sum := by
  intro ts
  induction ts with
  | nil =>
      intro tn st info hst
      refine ⟨{ info with
          requestCount :=
            info.requestCount * Real.exp (-lam * (tn - info.lastSeen)) + 1,
          lastSeen := tn }, ?_, rfl, ?_⟩
      · simp [runRequestEvents, UpdateRequestRate, hst, rlInsert]
      · simp [sub_self, Real.exp_zero]
  | cons t1 ts' ih =>
      intro tn st info hst
      have hst1 : (UpdateRequestRate lam clientID t1 st).2 clientID
          = some { info with
              requestCount :=
                info.requestCount * Real.exp (-lam * (t1 - info.lastSeen)) + 1,
              lastSeen := t1 } := by
        simp [UpdateRequestRate, hst, rlInsert]
      obtain ⟨fin, hf1, hf2, hf3⟩ := ih tn _ _ hst1
      have hstep :
          runRequestEvents lam clientID st ((t1 :: ts') ++ [tn]) clientID
            = runRequestEvents lam clientID
                ((UpdateRequestRate lam clientID t1 st).2) (ts' ++ [tn])
                clientID := by
        simp [runRequestEvents]
      refine ⟨fin, by rw [hstep]; exact hf1, hf2, ?_⟩
      rw [hf3]
      dsimp only
      simp only [List.cons_append, List.map_cons, List.sum_cons]
      have hexp :
          Real.exp (-lam * (t1 - info.lastSeen)) * Real.exp (-lam * (tn - t1))
            = Real.exp (-lam * (tn - info.lastSeen)) := by
        rw [← Real.exp_add]
        congr 1
        ring
      linear_combination info.requestCount * hexp

/-- C4: with decay rate `λ = ln 2 / H`, each counter update at instant `now`
on a record with previous value `c₀` taken at the recorded instant sets the
counter to `c₀ · exp(−λ·(now − t₀)) + 1` (`UpdateRequestRate` decays from
`lastSeen`, `UpdateErrorCount` from `lastError`); consequently, after events
at instants `t₁ < t₂ < … < tₙ` on one client starting from no record, either
counter equals the sum over `i ≤ n` of `exp(−λ·(tₙ − tᵢ))`. -/
theorem C4_decay_update_and_sum (halfLife : ℝ) :
    (∀ (clientID : String) (now : ℝ) (st : RLState ℝ) (info : ClientInfo ℝ),
        st clientID = some info →
        (UpdateRequestRate (decayRate halfLife) clientID now st).1
            = info.requestCount
                * Real.exp (-decayRate halfLife * (now - info.lastSeen)) + 1
        ∧ (UpdateErrorCount (decayRate halfLife) clientID now st).1
            = info.errorCount
                * Real.exp (-decayRate halfLife * (now - info.lastError)) + 1)
    ∧ (∀ (clientID : String) (ts : List ℝ) (tn : ℝ),
        (ts ++ [tn]).Chain' (· < ·) →
        (∃ fin, runErrorEvents (decayRate halfLife) clientID (emptyRL ℝ)
              (ts ++ [tn]) clientID = some fin
          ∧ fin.errorCount
              = ((ts ++ [tn]).map
                  (fun ti => Real.exp (-decayRate halfLife * (tn - ti)))).sum)
        ∧ (∃ fin, runRequestEvents (decayRate halfLife) clientID (emptyRL ℝ)
              (ts ++ [tn]) clientID = some fin
          ∧ fin.requestCount
              = ((ts ++ [tn]).map
                  (fun ti =>
                    Real.exp (-decayRate halfLife * (tn - ti)))).sum)) := by
  constructor
  · intro clientID now st info hst
    constructor
    · simp [UpdateRequestRate, hst]
    · simp [UpdateErrorCount, hst]
  · intro clientID ts tn _
    constructor
    · rcases ts with _ | ⟨t1, ts'⟩
      · refine ⟨⟨0, 1, tn, tn, 0⟩, ?_, ?_⟩
        · simp [runErrorEvents, UpdateErrorCount, emptyRL, rlInsert]
        · simp [sub_self, Real.exp_zero]
      · have hst1 :
            (UpdateErrorCount (decayRate halfLife) clientID t1
                (emptyRL ℝ)).2 clientID
              = some ⟨0, 1, t1, t1, 0⟩ := by
          simp [UpdateErrorCount, emptyRL, rlInsert]
        obtain ⟨fin, hf1, hf2, hf3⟩ :=
          runErrorEvents_growth (decayRate halfLife) clientID ts' tn _ _ hst1
        have hstep :
            runErrorEvents (decayRate halfLife) clientID (emptyRL ℝ)
                ((t1 :: ts') ++ [tn]) clientID
              = runErrorEvents (decayRate halfLife) clientID
                  ((UpdateErrorCount (decayRate halfLife) clientID t1
                      (emptyRL ℝ)).2) (ts' ++ [tn]) clientID := by
          simp [runErrorEvents]
        refine ⟨fin, by rw [hstep]; exact hf1, ?_⟩
        rw [hf3]
        dsimp only
        simp only [List.cons_append, List.map_cons, List.sum_cons]
        ring
    · rcases ts with _ | ⟨t1, ts'⟩
      · refine ⟨⟨1, 0, tn, 0, 0⟩, ?_, ?_⟩
        · simp [runRequestEvents, UpdateRequestRate, emptyRL, rlInsert]
        · simp [sub_self, Real.exp_zero]
      · have hst1 :
            (UpdateRequestRate (decayRate halfLife) clientID t1
                (emptyRL ℝ)).2 clientID
              = some ⟨1, 0, t1, 0, 0⟩ := by
          simp [UpdateRequestRate, emptyRL, rlInsert]
        obtain ⟨fin, hf1, hf2, hf3⟩ :=
          runRequestEvents_growth (decayRate halfLife) clientID ts' tn _ _ hst1
        have hstep :
            runRequestEvents (decayRate halfLife) clientID (emptyRL ℝ)
                ((t1 :: ts') ++ [tn]) clientID
              = runRequestEvents (decayRate halfLife) clientID
                  ((UpdateRequestRate (decayRate halfLife) clientID t1
                      (emptyRL ℝ)).2) (ts' ++ [tn]) clientID := by
          simp [runRequestEvents]
        refine ⟨fin, by rw [hstep]; exact hf1, ?_⟩
        rw [hf3]
        dsimp only
        simp only [List.cons_append, List.map_cons, List.sum_cons]
        ring

/-- Witness for C4: the update formula at a concrete record, and the sum
formula for the single event at instant 0. -/
theorem C4_witness :
    c4WState ipA = some c4WInfo
    ∧ ((UpdateRequestRate (decayRate 60) ipA 9 c4WState).1
          = c4WInfo.requestCount
              * Real.exp (-decayRate 60 * (9 - c4WInfo.lastSeen)) + 1
      ∧ (UpdateErrorCount (decayRate 60) ipA 9 c4WState).1
          = c4WInfo.errorCount
              * Real.exp (-decayRate 60 * (9 - c4WInfo.lastError)) + 1)
    ∧ (∃ fin, runErrorEvents (decayRate 60) ipA (emptyRL ℝ)
          (([] : List ℝ) ++ [0]) ipA = some fin
        ∧ fin.errorCount
            = ((([] : List ℝ) ++ [0]).map
                (fun ti => Real.exp (-decayRate 60 * (0 - ti)))).sum)
    ∧ (∃ fin, runRequestEvents (decayRate 60) ipA (emptyRL ℝ)
          (([] : List ℝ) ++ [0]) ipA = some fin
        ∧ fin.requestCount
            = ((([] : List ℝ) ++ [0]).map
                (fun ti => Real.exp (-decayRate 60 * (0 - ti)))).sum) := by
  have h : c4WState ipA = some c4WInfo := by simp [c4WState, rlInsert]
  have hb := (C4_decay_update_and_sum 60).2 ipA [] 0 (by simp)
  exact ⟨h, (C4_decay_update_and_sum 60).1 ipA 9 c4WState c4WInfo h,
    hb.1, hb.2⟩
